import Mathlib

/-!
Verification development for the MultiTask_NLU repository.

The development shallowly embeds the two source files:

* `src/model.py` — the multi-task IC / hierarchical-NER model.  Tensors are
  treated as an abstract type `T`; the learned modules (linear layers,
  multi-head attention, the backbone) are abstract functions over `T`.  The
  Python dictionaries keyed by tag-level names are embedded as association
  lists `List (String × T)`, which preserves both insertion order and the
  in-place-update semantics of `dict` mutation.  The pooling head
  (`NER2IC`), whose arithmetic the claims describe exactly, is additionally
  embedded concretely over rational matrices.

* `components/MultiTask/src/metrics.py` — the evaluator
  `evaluate_metrics`.  Numpy / torch arrays are lists; the metric
  primitives (`accuracy_score`, macro `f1_score`, `computeF1Score`) that
  live outside the two source files are modelled from the specification.
-/

/-! ### Association-list dictionaries (Python `dict` embedding) -/

/-- Lookup in an association list with a default value; `lookupD d k v`
is `d[k]` when the key is present and `v` otherwise. -/
def lookupD {T : Type} : List (String × T) → String → T → T
  | [], _, dflt => dflt
  | p :: rest, k, dflt => if p.1 = k then p.2 else lookupD rest k dflt

/-- In-place update of an existing key, keeping its position — the
semantics of `d[k] = v` on a Python dict whose key `k` is present.
A missing key is left alone (the embedded code only updates live keys). -/
def updKey {T : Type} (k : String) (v : T) : List (String × T) → List (String × T)
  | [] => []
  | p :: rest => if p.1 = k then (p.1, v) :: rest else p :: updKey k v rest

theorem updKey_map_fst {T : Type} (k : String) (v : T) :
    ∀ d : List (String × T), (updKey k v d).map Prod.fst = d.map Prod.fst := by
  intro d
  induction d with
  | nil => rfl
  | cons p rest ih =>
      by_cases h : p.1 = k
      · simp [updKey, h]
      · simp [updKey, h, ih]

theorem lookupD_updKey_self {T : Type} (k : String) (v dflt : T) :
    ∀ d : List (String × T), k ∈ d.map Prod.fst →
      lookupD (updKey k v d) k dflt = v := by
  intro d
  induction d with
  | nil => intro h; simp at h
  | cons p rest ih =>
      intro hmem
      by_cases h : p.1 = k
      · simp [updKey, h, lookupD]
      · simp only [List.map_cons, List.mem_cons] at hmem
        rcases hmem with h1 | h2
        · exact absurd h1.symm h
        · simp [updKey, h, lookupD, ih h2]

theorem lookupD_updKey_ne {T : Type} (k k' : String) (v dflt : T)
    (hne : k' ≠ k) :
    ∀ d : List (String × T),
      lookupD (updKey k v d) k' dflt = lookupD d k' dflt := by
  intro d
  induction d with
  | nil => rfl
  | cons p rest ih =>
      have hne2 : ¬ k = k' := fun hc => hne hc.symm
      by_cases h : p.1 = k
      · have : ¬ p.1 = k' := by rw [h]; exact fun hc => hne hc.symm
        simp [updKey, h, lookupD, this, hne2]
      · by_cases h2 : p.1 = k'
        · simp [updKey, h, lookupD, h2, hne]
        · simp [updKey, h, lookupD, h2, ih]

/-- Lookup of a key in the association list built by mapping a function
over a duplicate-free key list. -/
theorem lookupD_map_mk {T : Type} (f : String → T) (dflt : T) :
    ∀ (tags : List String), tags.Nodup → ∀ c ∈ tags,
      lookupD (tags.map (fun c2 => (c2, f c2))) c dflt = f c := by
  intro tags
  induction tags with
  | nil => intro _ c hc; simp at hc
  | cons t rest ih =>
      intro hnd c hc
      rcases List.mem_cons.mp hc with h1 | h2
      · simp [lookupD, h1]
      · have hne : ¬ t = c := by
          intro he
          exact (List.nodup_cons.mp hnd).1 (he ▸ h2)
        simp only [List.map_cons, lookupD, hne, if_false]
        exact ih (List.nodup_cons.mp hnd).2 c h2

/-! ### The tag hierarchy and the `IC2NER` cascade (`src/model.py`) -/

/-- Default tag name used for out-of-range hierarchy indices. -/
def nullTag : String := ""

/-- The tag-level name at hierarchy position `i` (`self.tags[i]`). -/
def tagAt (tags : List String) (i : Nat) : String := tags.getD i nullTag

/-- Output of the projection layer `LinearProjFormat.forward`: one IC
projection and one NER projection per tag level, the latter keyed by
tag-level name in hierarchy order (`model.py` lines 22-26). -/
structure FormattedTensor (T : Type) where
  IC : T
  H_NER : List (String × T)
  deriving DecidableEq

/-- The `IC2NER` module (`model.py` lines 29-58).  `tags` is the ordered
tag hierarchy; `linear` is the per-level IC-reshape linear layer
(`self.linear`); `attn` is the per-source-level multi-head attention
dictionary (`self.attn`), an association list so that its key set is part
of the data; `transp` and `matmul` are the abstract tensor operations
`torch.transpose(·, 1, 2)` and `torch.matmul`. -/
structure IC2NER (T : Type) where
  tags : List String
  linear : String → T → T
  attn : List (String × (T → T → T → T))
  transp : T → T
  matmul : T → T → T

/-- `IC2NER.__init__` (`model.py` lines 30-44): the attention dictionary
is built over `self.tags[:-1]`, one independently constructed module per
non-terminal source level. -/
def IC2NER.build {T : Type} (tags : List String) (mkLinear : String → T → T)
    (mkAttn : String → T → T → T → T) (transp : T → T) (matmul : T → T → T) :
    IC2NER T :=
  { tags := tags
    linear := mkLinear
    attn := tags.dropLast.map (fun c => (c, mkAttn c))
    transp := transp
    matmul := matmul }

/-- Application of the attention module stored under key `c`
(`self.attn[c]`); the default is never reached on the keys the forward
pass uses. -/
def IC2NER.attnF {T : Type} (P : IC2NER T) (c : String) : T → T → T → T :=
  lookupD P.attn c (fun q _ _ => q)

/-- The attention loop of `IC2NER.forward` (`model.py` lines 51-55):
`attnLoop P i s d` runs iterations `i, i+1, …, i+s-1` of

    for i in range(len(self.tags)-1):
        input['H_NER'][tags[i+1]], _ = self.attn[tags[i]](
            query=input['H_NER'][tags[i]],
            key=input['H_NER'][tags[i+1]],
            value=input['H_NER'][tags[i+1]])

threading the mutated dictionary state explicitly. -/
def attnLoop {T : Type} [Inhabited T] (P : IC2NER T) :
    Nat → Nat → List (String × T) → List (String × T)
  | _, 0, d => d
  | i, s + 1, d =>
      let q := lookupD d (tagAt P.tags i) default
      let kv := lookupD d (tagAt P.tags (i + 1)) default
      attnLoop P (i + 1) s (updKey (tagAt P.tags (i + 1)) (P.attnF (tagAt P.tags i) q kv kv) d)

/-- Result of `IC2NER.forward`: the per-level NER logits, the last
level's updated projection, and — because the Python code takes only a
shallow `dict.copy()` of its argument — the state of the caller's
`formatted_tensor` dictionary after the call (its `H_NER` value is the
same object the loop mutates; its `IC` value is only rebound inside the
copy, so the caller keeps the original). -/
structure IC2NERResult (T : Type) where
  ner_output : List (String × T)
  last : T
  caller : FormattedTensor T

/-- `IC2NER.forward` (`model.py` lines 46-58). -/
def IC2NER.forward {T : Type} [Inhabited T] (P : IC2NER T) (ft : FormattedTensor T) :
    IC2NERResult T :=
  let icD : List (String × T) := P.tags.map (fun c => (c, P.linear c (P.transp ft.IC)))
  let hner := attnLoop P 0 (P.tags.length - 1) ft.H_NER
  { ner_output := P.tags.map (fun c => (c, P.matmul (lookupD hner c default) (lookupD icD c default)))
    last := lookupD hner (P.tags.getLastD nullTag) default
    caller := { IC := ft.IC, H_NER := hner } }

/-- The left-to-right fold the specification describes: level 0 keeps its
original projection; level `i+1` is the level-`i` attention module applied
with the updated level-`i` value as query and the original level-`i+1`
value as key and value. -/
def updatedLevel {T : Type} [Inhabited T] (P : IC2NER T) (orig : List (String × T)) :
    Nat → T
  | 0 => lookupD orig (tagAt P.tags 0) default
  | i + 1 =>
      P.attnF (tagAt P.tags i) (updatedLevel P orig i)
        (lookupD orig (tagAt P.tags (i + 1)) default)
        (lookupD orig (tagAt P.tags (i + 1)) default)

theorem tagAt_mem (tags : List String) (i : Nat) (hi : i < tags.length) :
    tagAt tags i ∈ tags := by
  unfold tagAt
  rw [List.getD_eq_getElem tags nullTag hi]
  exact List.getElem_mem hi

theorem tagAt_inj (tags : List String) (hnd : tags.Nodup) (i j : Nat)
    (hi : i < tags.length) (hj : j < tags.length) (hne : i ≠ j) :
    tagAt tags i ≠ tagAt tags j := by
  unfold tagAt
  rw [List.getD_eq_getElem tags nullTag hi, List.getD_eq_getElem tags nullTag hj]
  intro hc
  have := (List.Nodup.get_inj_iff hnd (i := ⟨i, hi⟩) (j := ⟨j, hj⟩)).mp hc
  exact hne (congrArg Fin.val this)

theorem attnLoop_map_fst {T : Type} [Inhabited T] (P : IC2NER T) :
    ∀ (s i : Nat) (d : List (String × T)),
      (attnLoop P i s d).map Prod.fst = d.map Prod.fst := by
  intro s
  induction s with
  | zero => intro i d; rfl
  | succ s ih =>
      intro i d
      rw [attnLoop, ih]
      exact updKey_map_fst _ _ d

/-- Invariant of the attention loop: if the dictionary already carries the
folded values at levels `0..i` and the original values above `i`, then
after the remaining iterations every level `j` carries `updatedLevel j`. -/
theorem attnLoop_invariant {T : Type} [Inhabited T] (P : IC2NER T)
    (orig : List (String × T)) (hnd : P.tags.Nodup) :
    ∀ (s i : Nat) (d : List (String × T)),
      i + s + 1 = P.tags.length →
      d.map Prod.fst = P.tags →
      (∀ j, j ≤ i → lookupD d (tagAt P.tags j) default = updatedLevel P orig j) →
      (∀ j, i < j → j < P.tags.length →
        lookupD d (tagAt P.tags j) default = lookupD orig (tagAt P.tags j) default) →
      ∀ j, j < P.tags.length →
        lookupD (attnLoop P i s d) (tagAt P.tags j) default = updatedLevel P orig j := by
  intro s
  induction s with
  | zero =>
      intro i d hlen hkeys hlow hhigh j hj
      rw [attnLoop]
      exact hlow j (by omega)
  | succ s ih =>
      intro i d hlen hkeys hlow hhigh j hj
      rw [attnLoop]
      have hi1 : i + 1 < P.tags.length := by omega
      have hq : lookupD d (tagAt P.tags i) default = updatedLevel P orig i :=
        hlow i (Nat.le_refl i)
      have hkv : lookupD d (tagAt P.tags (i + 1)) default
          = lookupD orig (tagAt P.tags (i + 1)) default :=
        hhigh (i + 1) (Nat.lt_succ_self i) hi1
      have hmem : tagAt P.tags (i + 1) ∈ d.map Prod.fst := by
        rw [hkeys]; exact tagAt_mem P.tags (i + 1) hi1
      apply ih (i + 1)
      · omega
      · rw [updKey_map_fst]; exact hkeys
      · intro j2 hj2
        rcases Nat.lt_or_ge j2 (i + 1) with hlt | hge
        · have hne : tagAt P.tags j2 ≠ tagAt P.tags (i + 1) :=
            tagAt_inj P.tags hnd j2 (i + 1) (by omega) hi1 (by omega)
          rw [lookupD_updKey_ne _ _ _ _ hne]
          exact hlow j2 (by omega)
        · have hj2e : j2 = i + 1 := by omega
          subst hj2e
          rw [lookupD_updKey_self _ _ _ _ hmem, hq, hkv]
          rfl
      · intro j2 hj2 hj2n
        have hne : tagAt P.tags j2 ≠ tagAt P.tags (i + 1) :=
          tagAt_inj P.tags hnd j2 (i + 1) hj2n hi1 (by omega)
        rw [lookupD_updKey_ne _ _ _ _ hne]
        exact hhigh j2 (by omega) hj2n
      · exact hj

/-! ### The `LinearProjFormat` layer and the full model (`src/model.py`) -/

/-- The projection layer `LinearProjFormat` (`model.py` lines 9-26):
one learned IC projection and one learned NER projection per tag level. -/
structure LinearProjFormat (T : Type) where
  tags : List String
  linearIC : T → T
  linearNER : String → T → T

/-- `LinearProjFormat.forward` (`model.py` lines 22-26). -/
def LinearProjFormat.forward {T : Type} (L : LinearProjFormat T) (x : T) :
    FormattedTensor T :=
  { IC := L.linearIC x, H_NER := L.tags.map (fun c => (c, L.linearNER c x)) }

/-- The label-count dictionary `num_labels`: the IC label count and the
`H_NER` entry, an insertion-ordered dictionary from tag-level name to
that level's label count. -/
structure NumLabels where
  IC : Nat
  H_NER : List (String × Nat)

/-- `self.tags = list(self.num_labels["H_NER"].keys())`
(`model.py` line 94): the key insertion order of the `H_NER` entry. -/
def MT_tags (nl : NumLabels) : List String := nl.H_NER.map Prod.fst

/-- The composed model `MT_IC_HNER_Model` (`model.py` lines 80-123);
`ner2ic` abstracts the `NER2IC` pooling head, `transformer` the backbone. -/
structure MTModel (T : Type) where
  num_labels : NumLabels
  tags : List String
  transformer : T → T
  format_layer : LinearProjFormat T
  ic2ner : IC2NER T
  ner2ic : T → T → T

/-- `MT_IC_HNER_Model.__init__` (`model.py` lines 81-107): the tag order
is read off the `H_NER` key insertion order and passed to the projection
layer and the cascade. -/
def MTModel.build {T : Type} (backbone : T → T) (nl : NumLabels)
    (mkIC : T → T) (mkNER : String → T → T) (mkLinear : String → T → T)
    (mkAttn : String → T → T → T → T) (transp : T → T) (matmul : T → T → T)
    (pool : T → T → T) : MTModel T :=
  let tags := MT_tags nl
  { num_labels := nl
    tags := tags
    transformer := backbone
    format_layer := { tags := tags, linearIC := mkIC, linearNER := mkNER }
    ic2ner := IC2NER.build tags mkLinear mkAttn transp matmul
    ner2ic := pool }

/-- `MT_IC_HNER_Model.forward` (`model.py` lines 115-123). -/
def MTModel.forward {T : Type} [Inhabited T] (M : MTModel T) (tokens : T) :
    T × List (String × T) :=
  let seq := M.transformer tokens
  let fd := M.format_layer.forward seq
  let r := M.ic2ner.forward fd
  (M.ner2ic fd.IC r.last, r.ner_output)

/-! ### Claim C1 -/

theorem map_fst_map_pair {β : Type} (f : String → β) :
    ∀ l : List String, (l.map (fun c => (c, f c))).map Prod.fst = l := by
  intro l
  induction l with
  | nil => rfl
  | cons a l ih => simp only [List.map_cons, ih]

/-- C1: the attention stage of `IC2NER.forward` is a strict left-to-right
fold over the hierarchy: after the forward pass the projection stored at
level `j` equals `updatedLevel j`, i.e. level 0 is never updated and level
`i+1` is the level-`i` attention module applied with the updated level-`i`
projection as query and the original level-`i+1` projection as key and
value (first conjunct); the mix step multiplies those updated projections
with the IC-derived tensors (second conjunct); and the module dictionary
built by `IC2NER.__init__` has exactly the source levels `0..n-2` as keys,
`hierarchy_length - 1` modules in total (third conjunct). -/
theorem C1_attention_cascade_fold {T : Type} [Inhabited T]
    (P : IC2NER T) (ft : FormattedTensor T)
    (hnd : P.tags.Nodup) (hk : ft.H_NER.map Prod.fst = P.tags) :
    (∀ j, j < P.tags.length →
      lookupD (P.forward ft).caller.H_NER (tagAt P.tags j) default
        = updatedLevel P ft.H_NER j)
    ∧ (∀ j, j < P.tags.length →
      lookupD (P.forward ft).ner_output (tagAt P.tags j) default
        = P.matmul (updatedLevel P ft.H_NER j)
            (P.linear (tagAt P.tags j) (P.transp ft.IC)))
    ∧ (∀ (mkL : String → T → T) (mkA : String → T → T → T → T)
        (tr : T → T) (mm : T → T → T),
        (IC2NER.build P.tags mkL mkA tr mm).attn.map Prod.fst = P.tags.dropLast
        ∧ (IC2NER.build P.tags mkL mkA tr mm).attn.length = P.tags.length - 1) := by
  have hmain : ∀ j, j < P.tags.length →
      lookupD (attnLoop P 0 (P.tags.length - 1) ft.H_NER) (tagAt P.tags j) default
        = updatedLevel P ft.H_NER j := by
    intro j hj
    have hn : 1 ≤ P.tags.length := by omega
    refine attnLoop_invariant P ft.H_NER hnd (P.tags.length - 1) 0 ft.H_NER
      (by omega) hk ?_ (fun _ _ _ => rfl) j hj
    intro j2 hj2
    have : j2 = 0 := Nat.le_zero.mp hj2
    subst this
    rfl
  refine ⟨hmain, ?_, ?_⟩
  · intro j hj
    have hmem : tagAt P.tags j ∈ P.tags := tagAt_mem P.tags j hj
    have h1 : lookupD (P.forward ft).ner_output (tagAt P.tags j) default
        = P.matmul
            (lookupD (attnLoop P 0 (P.tags.length - 1) ft.H_NER) (tagAt P.tags j) default)
            (lookupD (P.tags.map (fun c2 => (c2, P.linear c2 (P.transp ft.IC)))) (tagAt P.tags j) default) :=
      lookupD_map_mk _ default P.tags hnd _ hmem
    rw [h1, hmain j hj, lookupD_map_mk _ default P.tags hnd _ hmem]
  · intro mkL mkA tr mm
    constructor
    · exact map_fst_map_pair mkA P.tags.dropLast
    · simp [IC2NER.build]

/-- Concrete cascade instance over `Nat` tensors used by the witnesses. -/
def exC1P : IC2NER Nat :=
  IC2NER.build ["a", "b", "c"] (fun _ x => x + 1) (fun _ q k v => 10 * q + k + v) id
    (fun x y => x * y + 2)

/-- Concrete formatted-tensor dictionary used by the witnesses. -/
def exC1FT : FormattedTensor Nat := { IC := 5, H_NER := [("a", 1), ("b", 2), ("c", 3)] }

/-- Witness for C1 at a concrete three-level hierarchy. -/
theorem C1_attention_cascade_fold_witness :
    exC1P.tags.Nodup ∧
      lookupD (exC1P.forward exC1FT).caller.H_NER (tagAt exC1P.tags 2) default
        = updatedLevel exC1P exC1FT.H_NER 2 :=
  ⟨by decide, (C1_attention_cascade_fold exC1P exC1FT (by decide) rfl).1 2 (by decide)⟩

/-! ### Claim C7 -/

/-- Two-level cascade whose attention module returns the constant 99;
used to exhibit the shallow-copy mutation of the caller's dictionary. -/
def exC7P : IC2NER Nat :=
  IC2NER.build ["a", "b"] (fun _ x => x) (fun _ _ _ _ => 99) id (fun x _ => x)

/-- Caller's formatted-tensor dictionary for the C7 counterexample. -/
def exC7FT : FormattedTensor Nat := { IC := 0, H_NER := [("a", 1), ("b", 2)] }

/-- C7 counterexample: `IC2NER.forward` takes only a shallow `dict.copy()`
of its argument, so the attention loop mutates the caller's `H_NER`
dictionary in place — after the call the caller's dictionary is changed
(level `"b"` now holds the attention output 99, not the original 2). -/
theorem C7_caller_dict_mutated :
    (exC7P.forward exC7FT).caller ≠ exC7FT := by decide

/-- C7 amended: the caller's `IC` entry is unchanged (the shallow copy
rebinds `input['IC']` without touching the caller's value) and the key
set of the caller's `H_NER` dictionary is unchanged, but its per-level
entries end in the attention-loop state; the whole dictionary is
guaranteed unchanged only for hierarchies of length at most 1, where the
loop performs no iteration. -/
theorem C7_shallow_copy_frame {T : Type} [Inhabited T]
    (P : IC2NER T) (ft : FormattedTensor T) :
    (P.forward ft).caller.IC = ft.IC
    ∧ (P.forward ft).caller.H_NER.map Prod.fst = ft.H_NER.map Prod.fst
    ∧ (P.forward ft).caller.H_NER = attnLoop P 0 (P.tags.length - 1) ft.H_NER
    ∧ (P.tags.length ≤ 1 → (P.forward ft).caller.H_NER = ft.H_NER) := by
  refine ⟨rfl, attnLoop_map_fst P _ 0 ft.H_NER, rfl, ?_⟩
  intro h
  show attnLoop P 0 (P.tags.length - 1) ft.H_NER = ft.H_NER
  have h0 : P.tags.length - 1 = 0 := by omega
  rw [h0]
  rfl

/-- Single-level cascade instance for the C7 witness. -/
def exC7P1 : IC2NER Nat :=
  IC2NER.build ["a"] (fun _ x => x) (fun _ _ _ _ => 99) id (fun x _ => x)

/-- Single-level formatted tensor for the C7 witness. -/
def exC7FT1 : FormattedTensor Nat := { IC := 0, H_NER := [("a", 1)] }

/-- Witness for the amended C7 at a length-1 hierarchy, discharging the
nested length hypothesis. -/
theorem C7_shallow_copy_frame_witness :
    exC7P1.tags.length ≤ 1 ∧ (exC7P1.forward exC7FT1).caller.H_NER = exC7FT1.H_NER :=
  ⟨by decide, (C7_shallow_copy_frame exC7P1 exC7FT1).2.2.2 (by decide)⟩

/-! ### Claim C9 -/

/-- C9: the tag-hierarchy order used throughout the model is exactly the
key insertion order of the `H_NER` entry of the label-count dictionary:
`MTModel.build` stores it as `tags`, hands it unchanged to the projection
layer and to the cascade, the pooling head receives the projection at
`tags`' last key, and the order depends on nothing besides the `H_NER`
key sequence. -/
theorem C9_hierarchy_order_from_keys {T : Type} [Inhabited T]
    (backbone : T → T) (nl : NumLabels) (mkIC : T → T) (mkNER : String → T → T)
    (mkLinear : String → T → T) (mkAttn : String → T → T → T → T)
    (transp : T → T) (matmul : T → T → T) (pool : T → T → T) :
    (MTModel.build backbone nl mkIC mkNER mkLinear mkAttn transp matmul pool).tags
      = MT_tags nl
    ∧ (MTModel.build backbone nl mkIC mkNER mkLinear mkAttn transp matmul pool).format_layer.tags
      = MT_tags nl
    ∧ (MTModel.build backbone nl mkIC mkNER mkLinear mkAttn transp matmul pool).ic2ner.tags
      = MT_tags nl
    ∧ (∀ ft : FormattedTensor T,
        (((MTModel.build backbone nl mkIC mkNER mkLinear mkAttn transp matmul pool).ic2ner).forward ft).last
          = lookupD (attnLoop (MTModel.build backbone nl mkIC mkNER mkLinear mkAttn transp matmul pool).ic2ner 0
              ((MT_tags nl).length - 1) ft.H_NER) ((MT_tags nl).getLastD nullTag) default)
    ∧ (∀ nl2 : NumLabels, nl.H_NER.map Prod.fst = nl2.H_NER.map Prod.fst →
        MT_tags nl = MT_tags nl2) :=
  ⟨rfl, rfl, rfl, fun _ => rfl, fun _ h => h⟩

/-- Witness for C9 at a concrete label-count dictionary, discharging the
nested key-equality hypothesis with a second dictionary that shares only
the `H_NER` key order. -/
theorem C9_hierarchy_order_from_keys_witness :
    MT_tags { IC := 3, H_NER := [("a", 2), ("b", 4)] }
      = MT_tags { IC := 7, H_NER := [("a", 9), ("b", 1)] } :=
  (C9_hierarchy_order_from_keys (T := Nat) id { IC := 3, H_NER := [("a", 2), ("b", 4)] }
    id (fun _ x => x) (fun _ x => x) (fun _ q _ _ => q) id (fun x _ => x) (fun x _ => x)).2.2.2.2
    { IC := 7, H_NER := [("a", 9), ("b", 1)] } (by decide)

/-! ### The `NER2IC` pooling head over concrete rational matrices -/

/-- A rational vector (one tensor axis). -/
abbrev Vec := List ℚ

/-- A rational matrix; a single example's (positions × channels) slice. -/
abbrev Mat := List (List ℚ)

/-- Mean of a vector (`torch.mean` over one axis); `0` on the empty
vector, which the embedded code never hits. -/
def vMean (v : Vec) : ℚ := v.sum / v.length

/-- Dot product of two vectors (truncating at the shorter one). -/
def dotQ (u v : Vec) : ℚ := ((u.zip v).map (fun p => p.1 * p.2)).sum

/-- Matrix transpose; the column count is read off the first row. -/
def transposeM (m : Mat) : Mat :=
  match m with
  | [] => []
  | r :: rs => (List.range r.length).map (fun j => (r :: rs).map (fun row => row.getD j 0))

/-- Matrix product `torch.matmul` on one example. -/
def matMul (a b : Mat) : Mat :=
  a.map (fun row => (transposeM b).map (fun col => dotQ row col))

/-- `torch.mean(t, dim=-1, keepdim=True)` on a (positions × channels)
slice: each row collapses to its mean, keeping the axis. -/
def meanLastKeep (m : Mat) : Mat := m.map (fun r => [vMean r])

/-- Column means of a matrix (mean over the position axis). -/
def colMeans (m : Mat) : Vec := (transposeM m).map vMean

/-- `torch.mean(t, dim=1, keepdim=True)` on a (positions × proj_dim)
slice: the position axis collapses to the single row of column means. -/
def meanDim1Keep (m : Mat) : Mat := [colMeans m]

/-- A `torch.nn.Linear` applied to one example's vector:
`W x + b` with per-output-row dot products. -/
def linearM (W : Mat) (b : Vec) (x : Vec) : Vec :=
  List.zipWith (· + ·) (W.map (fun wrow => dotQ wrow x)) b

/-- `NER2IC.forward` (`model.py` lines 71-77) on one example: mean the IC
projection over its channel axis keeping positions, mean the final NER
projection over its position axis keeping channels, `matmul` the two,
mean over positions, and apply the learned linear map. -/
def NER2IC_forward (W : Mat) (b : Vec) (ic_tensor last_ner_tensor : Mat) : Vec :=
  let ic1 := meanLastKeep ic_tensor
  let ner1 := meanDim1Keep last_ner_tensor
  let output := matMul ic1 ner1
  let output2 := colMeans output
  linearM W b output2

/-- Outer product of two vectors, as the claim words it
("outer-multiplied"). -/
def outerProd (u v : Vec) : Mat := u.map (fun x => v.map (fun y => x * y))

/-- Modelled from the spec: the pooling-head algorithm exactly as
section 4.3 words it — average the IC projection over its channel axis,
average the final NER tensor over its position axis, outer-multiply the
two, average the product over positions, then apply one learned linear
map. -/
def NER2IC_specAlg (W : Mat) (b : Vec) (ic_tensor last_ner_tensor : Mat) : Vec :=
  linearM W b (colMeans (outerProd (ic_tensor.map vMean) (colMeans last_ner_tensor)))

theorem range_map_getD {α : Type} (v : List ℚ) (f : ℚ → α) :
    (List.range v.length).map (fun j => f (v.getD j 0)) = v.map f := by
  apply List.ext_getElem
  · simp
  · intro i h1 h2
    simp only [List.getElem_map, List.getElem_range]
    rw [List.getD_eq_getElem v 0 (by simpa using h2)]

theorem transposeM_single (v : Vec) :
    transposeM [v] = v.map (fun y => [y]) :=
  range_map_getD v (fun y => [y])

theorem dotQ_single (x y : ℚ) : dotQ [x] [y] = x * y := by
  simp [dotQ]

/-- The matrix product of a (positions × 1) column with a (1 × proj_dim)
row is the outer product of the two vectors. -/
theorem matMul_col_row (u v : Vec) :
    matMul (u.map (fun x => [x])) [v] = outerProd u v := by
  unfold matMul outerProd
  rw [transposeM_single, List.map_map]
  apply List.map_congr_left
  intro x _
  show (v.map (fun y => [y])).map (fun col => dotQ [x] col) = v.map (fun y => x * y)
  rw [List.map_map]
  apply List.map_congr_left
  intro y _
  show dotQ [x] [y] = x * y
  exact dotQ_single x y

/-- C2: the pooling head's output on every IC projection and final-level
NER projection equals the spec's composition — channel-mean of the IC
projection, position-mean of the NER tensor, outer product, position-mean
of the product, then the learned linear map to the IC label count. -/
theorem C2_pooling_head_algorithm (W : Mat) (b : Vec) (ic_tensor last_ner_tensor : Mat) :
    NER2IC_forward W b ic_tensor last_ner_tensor
      = NER2IC_specAlg W b ic_tensor last_ner_tensor := by
  have h : ic_tensor.map (fun r => [vMean r])
      = (ic_tensor.map vMean).map (fun x => [x]) := by
    rw [List.map_map]
    rfl
  show linearM W b
      (colMeans (matMul (meanLastKeep ic_tensor) (meanDim1Keep last_ner_tensor))) = _
  unfold meanLastKeep meanDim1Keep
  rw [h, matMul_col_row]
  rfl

/-! ### The evaluator `evaluate_metrics` (`components/MultiTask/src/metrics.py`) -/

/-- A numpy array that is either zero-dimensional or one-dimensional —
the two shapes `torch.squeeze` can produce from a `(batch, 1)` slice. -/
inductive NDA where
  | scalar : Int → NDA
  | vec : List Int → NDA
  deriving DecidableEq

/-- `torch.squeeze` applied to the `(batch_size, 1)` slice
`batch.get('labels')[:, :1]` (`metrics.py` line 19): all singleton axes
are removed, so a one-example batch collapses to a zero-dimensional
scalar while any other batch size yields the flat column vector. -/
def squeezeCol1 (m : List (List Int)) : NDA :=
  match m with
  | [r] => NDA.scalar (r.headD 0)
  | _ => NDA.vec (m.map (fun r => r.headD 0))

/-- Whether an array is one-dimensional. -/
def NDA.isVec : NDA → Bool
  | NDA.vec _ => true
  | NDA.scalar _ => false

/-- The entries of a one-dimensional array (`[]` on a scalar, which the
lemmas exclude). -/
def NDA.toVec : NDA → List Int
  | NDA.vec v => v
  | NDA.scalar _ => []

/-- One step of vector concatenation; `none` on a zero-dimensional
array or an already-failed tail. -/
def consVec (a : NDA) (acc : Option (List Int)) : Option (List Int) :=
  match a, acc with
  | NDA.vec xs, some ys => some (xs ++ ys)
  | _, _ => none

/-- Concatenation of one-dimensional arrays; `none` as soon as a
zero-dimensional member appears. -/
def concatVecs : List NDA → Option (List Int)
  | [] => some []
  | a :: rest => consVec a (concatVecs rest)

/-- `np.concatenate` over the accumulated per-batch arrays
(`metrics.py` line 37): fails (`none`) on an empty list and on any
zero-dimensional member, exactly the two `ValueError` cases. -/
def npConcatenate : List NDA → Option (List Int)
  | [] => none
  | l => concatVecs l

theorem concatVecs_all_vec :
    ∀ l : List NDA, (∀ a ∈ l, a.isVec = true) →
      concatVecs l = some ((l.map NDA.toVec).flatten) := by
  intro l
  induction l with
  | nil => intro _; rfl
  | cons a rest ih =>
      intro hv
      have ha := hv a (List.mem_cons_self a rest)
      have hrest := ih (fun x hx => hv x (List.mem_cons_of_mem a hx))
      cases a with
      | scalar x => simp [NDA.isVec] at ha
      | vec xs => simp [concatVecs, consVec, hrest, NDA.toVec]

theorem npConcatenate_all_vec (l : List NDA) (hne : l ≠ [])
    (hv : ∀ a ∈ l, a.isVec = true) :
    npConcatenate l = some ((l.map NDA.toVec).flatten) := by
  cases l with
  | nil => exact absurd rfl hne
  | cons a rest => exact concatVecs_all_vec (a :: rest) hv

/-- Fuel-driven worker for `chunkList`. -/
def chunkGo {α : Type} (k : Nat) : Nat → List α → List (List α)
  | 0, _ => []
  | fuel + 1, l =>
      if l.isEmpty then [] else l.take k :: chunkGo k fuel (l.drop k)

/-- Row-major reshape of a flat array into rows of length `k`
(the `reshape((-1, …))` steps of `metrics.py` line 26). -/
def chunkList {α : Type} (k : Nat) (l : List α) : List (List α) :=
  if k = 0 then [] else chunkGo k l.length l

/-- Worker for `argmaxQ`: best index and value so far, current index. -/
def argmaxAux : List ℚ → Nat → Nat → ℚ → Nat
  | [], _, bi, _ => bi
  | x :: rest, i, bi, bv =>
      if bv < x then argmaxAux rest (i + 1) i x else argmaxAux rest (i + 1) bi bv

/-- `torch.argmax` over the last axis: index of the first maximal entry
(0 on the empty list, which the embedded code never hits). -/
def argmaxQ : List ℚ → Nat
  | [] => 0
  | x :: rest => argmaxAux rest 1 0 x

/-- The inverted tag dictionary
`idx2ner = {v: k for k, v in ner2idx.items()}` (`metrics.py` line 12),
with the usual dict-comprehension later-entry-wins behaviour, read back
as a partial function from label id to tag string. -/
def invertMap (m : List (String × Int)) : Int → Option String :=
  fun i => ((m.filter (fun p => p.2 == i)).getLast?).map Prod.fst

/-- `np.vectorize(idx2ner.get)` applied to a two-dimensional label-id
array (`metrics.py` lines 29-30): every id is looked up independently and
a missing id silently becomes the sentinel `none` (Python `None`) — the
lookup uses `dict.get`, which never raises. -/
def decodeNER (idx2ner : Int → Option String) (rows : List (List Int)) :
    List (List (Option String)) :=
  rows.map (List.map idx2ner)

/-- A batch yielded by the evaluation dataloader: token ids, attention
mask and the stacked label tensor (column 0 the IC label, the remaining
columns the flattened NER labels). -/
structure Batch where
  tokens : List (List Int)
  attn_mask : List (List Int)
  labels : List (List Int)
  deriving DecidableEq

/-- The frozen trainer/model state the evaluator reads
(`trainer.model`, `trainer.eval_dataset.ner2idx`): the IC and NER label
counts, the maximum sequence length, the tag dictionary, and the frozen
forward function from a batch to one flat logit row per example. -/
structure EvalModel where
  numIC : Nat
  numNER : Nat
  max_length : Nat
  ner2idx : List (String × Int)
  run : Batch → List (List ℚ)

/-- Predicted IC ids: arg-max over the first `numIC` logits of each row
(`metrics.py` line 25). -/
def icPred (M : EvalModel) (output : List (List ℚ)) : List Int :=
  output.map (fun r => Int.ofNat (argmaxQ (r.take M.numIC)))

/-- Predicted NER ids: the logit columns after the IC block, reshaped to
`(-1, max_length, numNER)` and arg-maxed over the last axis
(`metrics.py` lines 26-27). -/
def nerPredIds (M : EvalModel) (output : List (List ℚ)) : List (List Nat) :=
  (chunkList (M.max_length * M.numNER) ((output.map (List.drop M.numIC)).flatten)).map
    (fun ex => (chunkList M.numNER ex).map argmaxQ)

/-- The per-batch accumulator entries appended by one loop iteration of
`evaluate_metrics` (`metrics.py` lines 17-35). -/
structure BatchAcc where
  icL : NDA
  icO : List Int
  nerL : List (List (Option String))
  nerO : List (List (Option String))

/-- One iteration of the evaluator's batch loop (`metrics.py`
lines 17-35): label split, frozen forward pass, arg-max decoding, and
id-to-string decoding of gold and predicted NER labels. -/
def processBatch (M : EvalModel) (b : Batch) : BatchAcc :=
  let idx2ner := invertMap M.ner2idx
  let output := M.run b
  { icL := squeezeCol1 (b.labels.map (List.take 1))
    icO := icPred M output
    nerL := decodeNER idx2ner (b.labels.map (List.drop 1))
    nerO := (nerPredIds M output).map (List.map (fun n => idx2ner (Int.ofNat n))) }

/-- Modelled from the spec: `sklearn.metrics.accuracy_score` — the exact
match rate of two aligned label arrays. -/
def accuracy_score (t p : List Int) : ℚ :=
  ((t.zip p).countP (fun q => q.1 == q.2) : ℚ) / (t.length : ℚ)

/-- True-positive count of class `c` in an aligned (gold, predicted)
pair list. -/
def tpC (z : List (Int × Int)) (c : Int) : Nat :=
  z.countP (fun q => q.1 == c && q.2 == c)

/-- Gold-support count of class `c`. -/
def trueC (z : List (Int × Int)) (c : Int) : Nat := z.countP (fun q => q.1 == c)

/-- Predicted-support count of class `c`. -/
def predCnt (z : List (Int × Int)) (c : Int) : Nat := z.countP (fun q => q.2 == c)

/-- Per-class F1 with the zero-division-is-zero convention (division by
zero is `0` in `ℚ`, matching sklearn's `zero_division=0`). -/
def f1Class (z : List (Int × Int)) (c : Int) : ℚ :=
  let p : ℚ := (tpC z c : ℚ) / (predCnt z c : ℚ)
  let r : ℚ := (tpC z c : ℚ) / (trueC z c : ℚ)
  2 * p * r / (p + r)

/-- Modelled from the spec: `sklearn.metrics.f1_score(…, average='macro')`
— the unweighted mean of per-class F1 over the classes present in the
gold or predicted arrays. -/
def f1_score (t p : List Int) : ℚ :=
  let z := t.zip p
  let cs : Finset Int := (t ++ p).toFinset
  (cs.sum (fun c => f1Class z c)) / (cs.card : ℚ)

/-- Whether a tag string begins an entity (starts with the two
characters `B-`); stated over the character list so that it evaluates
inside the kernel. -/
def tagIsB (s : String) : Bool := s.data.take 2 = ['B', '-']

/-- The entity type carried by a `B-`/`I-` tag: the characters after the
two-character scheme marker. -/
def tagType (s : String) : String := String.mk (s.data.drop 2)

/-- Whether a tag string continues an entity of type `ty` (equals
`I-` followed by `ty`). -/
def tagIsI (s : String) (ty : String) : Bool :=
  s.data = 'I' :: '-' :: ty.data

/-- Length of the leading run of `I-ty` continuation tags. -/
def countIRun (ty : String) : List (Option String) → Nat
  | some s :: rest => if tagIsI s ty then 1 + countIRun ty rest else 0
  | _ => 0

/-- Modelled from the spec: entity spans of one decoded tag sequence
under the begin/inside/outside convention — a `B-ty` tag at position `i`
followed by `k` continuation tags `I-ty` yields the span `(i, i+k, ty)`;
any other tag (including the `none` sentinel) opens no span. -/
def entsFrom (i : Nat) : List (Option String) → List (Nat × Nat × String)
  | [] => []
  | t :: rest =>
      match t with
      | some s =>
          if tagIsB s then
            (i, i + countIRun (tagType s) rest, tagType s) :: entsFrom (i + 1) rest
          else entsFrom (i + 1) rest
      | none => entsFrom (i + 1) rest

/-- Total entity count of a batch of decoded tag sequences. -/
def entCount (l : List (List (Option String))) : Nat :=
  (l.map (fun row => (entsFrom 0 row).length)).sum

/-- Entities of the predicted rows that also occur, with identical span
and type, in the aligned gold rows. -/
def matchedCount (pred gold : List (List (Option String))) : Nat :=
  ((pred.zip gold).map
    (fun pr => ((entsFrom 0 pr.1).filter (fun e => decide (e ∈ entsFrom 0 pr.2))).length)).sum

/-- Modelled from the spec: the sequence-tagging scorer `computeF1Score`
(imported from the repository's `utils`, not under `src/`) — entity-level
(F1, precision, recall) over aligned decoded tag sequences, with the
zero-division-is-zero convention. -/
def computeF1Score (pred gold : List (List (Option String))) : ℚ × ℚ × ℚ :=
  let tp : ℚ := (matchedCount pred gold : ℚ)
  let prec : ℚ := tp / (entCount pred : ℚ)
  let rc : ℚ := tp / (entCount gold : ℚ)
  (2 * prec * rc / (prec + rc), prec, rc)

/-- The five-entry metrics record of one aggregation call
(`metrics.py` lines 45 and 53). -/
structure Metrics where
  accuracy_IC : ℚ
  f1_IC : ℚ
  f1_NER : ℚ
  precision_NER : ℚ
  recall_NER : ℚ
  deriving DecidableEq

/-- The five metrics over one set of concatenated decoded arrays
(`metrics.py` lines 43-46, reused per language at lines 50-53). -/
def globalMetricsOf (icL icO : List Int) (nerL nerO : List (List (Option String))) :
    Metrics :=
  let f1pr := computeF1Score nerO nerL
  { accuracy_IC := accuracy_score icL icO
    f1_IC := f1_score icL icO
    f1_NER := f1pr.1
    precision_NER := f1pr.2.1
    recall_NER := f1pr.2.2 }

/-- Boolean-mask selection `xs[language_arr == lang]`: the entries of
`xs` at the positions where the parallel language array equals `lang`. -/
def maskSel {α : Type} (langs : List String) (lang : String) (xs : List α) : List α :=
  ((langs.zip xs).filter (fun p => p.1 == lang)).map Prod.snd

/-- The distinct language values, one key per value occurring in the
language array.  `np.unique` additionally sorts its output; no claim
depends on the enumeration order of the per-language mapping, and string
order does not reduce in the kernel, so the embedding keeps `dedup`
order instead of sorted order. -/
def uniqueLangs (l : List String) : List String := l.dedup

/-- `evaluate_metrics` (`metrics.py` lines 10-55): run the frozen model
over every batch, concatenate the decoded accumulators, compute the five
global metrics, then recompute them per distinct language value over the
boolean-mask-selected subsets.  The result is `none` exactly when
`np.concatenate` raises on the accumulated IC labels (empty batch list,
or some batch whose squeezed IC column is zero-dimensional). -/
def evaluate_metrics (M : EvalModel) (batches : List Batch) (language_arr : List String) :
    Option (Metrics × List (String × Metrics)) :=
  let accs := batches.map (processBatch M)
  match npConcatenate (accs.map BatchAcc.icL) with
  | none => none
  | some icLabels =>
      let icOutput := (accs.map BatchAcc.icO).flatten
      let nerLabels := (accs.map BatchAcc.nerL).flatten
      let nerOutput := (accs.map BatchAcc.nerO).flatten
      some (globalMetricsOf icLabels icOutput nerLabels nerOutput,
        (uniqueLangs language_arr).map (fun lang =>
          (lang, globalMetricsOf (maskSel language_arr lang icLabels)
            (maskSel language_arr lang icOutput)
            (maskSel language_arr lang nerLabels)
            (maskSel language_arr lang nerOutput))))

/-! ### Permutation invariance of the global metrics -/

theorem flatten_zip_flatten {γ α β : Type} (f : γ → List α) (g : γ → List β) :
    ∀ L : List γ, (∀ x ∈ L, (f x).length = (g x).length) →
      ((L.map f).flatten).zip ((L.map g).flatten)
        = (L.map (fun x => (f x).zip (g x))).flatten := by
  intro L
  induction L with
  | nil => intro _; rfl
  | cons a L ih =>
      intro hx
      simp only [List.map_cons, List.flatten_cons]
      rw [List.zip_append (hx a (List.mem_cons_self a L)),
        ih (fun x hxx => hx x (List.mem_cons_of_mem a hxx))]

/-- Alignment conditions a batch satisfies on the normal path: at least
two examples (so the squeezed IC column stays one-dimensional), and the
model output aligned with the labels so that the per-batch accumulator
rows pair up one to one. -/
def goodBatch (M : EvalModel) (b : Batch) : Prop :=
  ((processBatch M b).icL).isVec = true
  ∧ ((processBatch M b).icL).toVec.length = (processBatch M b).icO.length
  ∧ (processBatch M b).nerO.length = (processBatch M b).nerL.length

theorem accuracy_score_perm (t p t2 p2 : List Int)
    (hz : List.Perm (t.zip p) (t2.zip p2)) (hl : t.length = t2.length) :
    accuracy_score t p = accuracy_score t2 p2 := by
  unfold accuracy_score
  rw [hz.countP_eq, hl]

theorem f1Class_perm (z z2 : List (Int × Int)) (h : List.Perm z z2) (c : Int) :
    f1Class z c = f1Class z2 c := by
  unfold f1Class tpC predCnt trueC
  rw [h.countP_eq, h.countP_eq, h.countP_eq]

theorem f1_score_perm (t p t2 p2 : List Int)
    (hz : List.Perm (t.zip p) (t2.zip p2))
    (ht : List.Perm t t2) (hp : List.Perm p p2) :
    f1_score t p = f1_score t2 p2 := by
  have hcs : (t ++ p).toFinset = (t2 ++ p2).toFinset :=
    List.toFinset_eq_of_perm _ _ (ht.append hp)
  show (((t ++ p).toFinset).sum (fun c => f1Class (t.zip p) c))
        / (((t ++ p).toFinset).card : ℚ)
      = (((t2 ++ p2).toFinset).sum (fun c => f1Class (t2.zip p2) c))
        / (((t2 ++ p2).toFinset).card : ℚ)
  rw [hcs, Finset.sum_congr rfl (fun c _ => f1Class_perm _ _ hz c)]

theorem entCount_perm (l l2 : List (List (Option String))) (h : List.Perm l l2) :
    entCount l = entCount l2 := by
  unfold entCount
  exact (h.map _).sum_eq

theorem matchedCount_perm (p g p2 g2 : List (List (Option String)))
    (hz : List.Perm (p.zip g) (p2.zip g2)) :
    matchedCount p g = matchedCount p2 g2 := by
  unfold matchedCount
  exact (hz.map _).sum_eq

theorem computeF1Score_perm (p g p2 g2 : List (List (Option String)))
    (hz : List.Perm (p.zip g) (p2.zip g2))
    (hp : List.Perm p p2) (hg : List.Perm g g2) :
    computeF1Score p g = computeF1Score p2 g2 := by
  unfold computeF1Score
  rw [matchedCount_perm p g p2 g2 hz, entCount_perm p p2 hp, entCount_perm g g2 hg]

/-- The global metrics record over the four concatenated arrays is
invariant under a simultaneous permutation of the batch accumulators. -/
theorem globalMetricsOf_perm (accs accs2 : List BatchAcc)
    (hperm : List.Perm accs accs2)
    (hlen1 : ∀ a ∈ accs, (a.icL).toVec.length = a.icO.length)
    (hlen2 : ∀ a ∈ accs, a.nerO.length = a.nerL.length) :
    globalMetricsOf ((accs.map (fun a => a.icL.toVec)).flatten)
        ((accs.map BatchAcc.icO).flatten)
        ((accs.map BatchAcc.nerL).flatten)
        ((accs.map BatchAcc.nerO).flatten)
      = globalMetricsOf ((accs2.map (fun a => a.icL.toVec)).flatten)
        ((accs2.map BatchAcc.icO).flatten)
        ((accs2.map BatchAcc.nerL).flatten)
        ((accs2.map BatchAcc.nerO).flatten) := by
  have hlen1b : ∀ a ∈ accs2, (a.icL).toVec.length = a.icO.length :=
    fun a ha => hlen1 a (hperm.mem_iff.mpr ha)
  have hlen2b : ∀ a ∈ accs2, a.nerO.length = a.nerL.length :=
    fun a ha => hlen2 a (hperm.mem_iff.mpr ha)
  have hA : List.Perm ((accs.map (fun a => a.icL.toVec)).flatten)
      ((accs2.map (fun a => a.icL.toVec)).flatten) := (hperm.map _).flatten
  have hO : List.Perm ((accs.map BatchAcc.icO).flatten)
      ((accs2.map BatchAcc.icO).flatten) := (hperm.map _).flatten
  have hNL : List.Perm ((accs.map BatchAcc.nerL).flatten)
      ((accs2.map BatchAcc.nerL).flatten) := (hperm.map _).flatten
  have hNO : List.Perm ((accs.map BatchAcc.nerO).flatten)
      ((accs2.map BatchAcc.nerO).flatten) := (hperm.map _).flatten
  have hzIC : List.Perm
      (((accs.map (fun a => a.icL.toVec)).flatten).zip ((accs.map BatchAcc.icO).flatten))
      (((accs2.map (fun a => a.icL.toVec)).flatten).zip ((accs2.map BatchAcc.icO).flatten)) := by
    rw [flatten_zip_flatten _ _ accs hlen1, flatten_zip_flatten _ _ accs2 hlen1b]
    exact (hperm.map _).flatten
  have hzNER : List.Perm
      (((accs.map BatchAcc.nerO).flatten).zip ((accs.map BatchAcc.nerL).flatten))
      (((accs2.map BatchAcc.nerO).flatten).zip ((accs2.map BatchAcc.nerL).flatten)) := by
    rw [flatten_zip_flatten _ _ accs hlen2, flatten_zip_flatten _ _ accs2 hlen2b]
    exact (hperm.map _).flatten
  unfold globalMetricsOf
  rw [accuracy_score_perm _ _ _ _ hzIC hA.length_eq,
    f1_score_perm _ _ _ _ hzIC hA hO,
    computeF1Score_perm _ _ _ _ hzNER hNO hNL]

/-- `evaluate_metrics` on the normal path: once the IC-label
concatenation succeeds, the result is the global record over the four
concatenated arrays paired with the per-language records. -/
theorem evaluate_metrics_some (M : EvalModel) (bs : List Batch) (ls : List String)
    (A : List Int)
    (hc : npConcatenate ((bs.map (processBatch M)).map BatchAcc.icL) = some A) :
    evaluate_metrics M bs ls = some
      (globalMetricsOf A (((bs.map (processBatch M)).map BatchAcc.icO).flatten)
        (((bs.map (processBatch M)).map BatchAcc.nerL).flatten)
        (((bs.map (processBatch M)).map BatchAcc.nerO).flatten),
      (uniqueLangs ls).map (fun lang =>
        (lang, globalMetricsOf (maskSel ls lang A)
          (maskSel ls lang (((bs.map (processBatch M)).map BatchAcc.icO).flatten))
          (maskSel ls lang (((bs.map (processBatch M)).map BatchAcc.nerL).flatten))
          (maskSel ls lang (((bs.map (processBatch M)).map BatchAcc.nerO).flatten))))) := by
  unfold evaluate_metrics
  dsimp only
  split
  next heq =>
      rw [hc] at heq
      exact Option.noConfusion heq
  next A2 heq =>
      rw [hc] at heq
      injection heq with h2
      subst h2
      rfl

/-- Concrete evaluator state for the C4 counterexample and the evaluator
witnesses: two IC classes, one NER tag `O`, sequence length one; the
frozen model classifies an example by its token value. -/
def exM : EvalModel :=
  { numIC := 2
    numNER := 1
    max_length := 1
    ner2idx := [("O", 0)]
    run := fun b => b.tokens.map (fun t => if t.headD 0 ≤ 2 then [1, 0, 0] else [0, 1, 0]) }

/-- First two-example batch (tokens 1 and 2; the model predicts IC 0). -/
def exB1 : Batch := { tokens := [[1], [2]], attn_mask := [[1], [1]], labels := [[0, 0], [0, 0]] }

/-- Second two-example batch (tokens 3 and 4; the model predicts IC 1). -/
def exB2 : Batch := { tokens := [[3], [4]], attn_mask := [[1], [1]], labels := [[0, 0], [0, 0]] }

/-- Language array aligned with the `[exB1, exB2]` iteration order. -/
def exLangs : List String := ["en", "en", "fr", "fr"]

/-- C4 counterexample: permuting the batch iteration order while keeping
the caller-supplied language array fixed changes the per-language metric
values — the concatenated predictions are permuted but the language mask
still selects by the original positions, so `en` picks up the examples of
the other batch (IC accuracy 1 versus 0). -/
theorem C4_batch_order_counterexample :
    evaluate_metrics exM [exB1, exB2] exLangs
      ≠ evaluate_metrics exM [exB2, exB1] exLangs := by
  intro h
  have h2 : ((evaluate_metrics exM [exB1, exB2] exLangs).map
        (fun r => (r.2.map (fun p => p.2.accuracy_IC)).headD 0))
      = ((evaluate_metrics exM [exB2, exB1] exLangs).map
        (fun r => (r.2.map (fun p => p.2.accuracy_IC)).headD 0)) := by rw [h]
  have hl : ((evaluate_metrics exM [exB1, exB2] exLangs).map
        (fun r => (r.2.map (fun p => p.2.accuracy_IC)).headD 0))
      = some (((2 : Nat) : ℚ) / ((2 : Nat) : ℚ)) := rfl
  have hr : ((evaluate_metrics exM [exB2, exB1] exLangs).map
        (fun r => (r.2.map (fun p => p.2.accuracy_IC)).headD 0))
      = some (((0 : Nat) : ℚ) / ((2 : Nat) : ℚ)) := rfl
  rw [hl, hr] at h2
  have h3 := Option.some.inj h2
  norm_num at h3

/-- C4 amended: over any permutation of the batch list (same batch
contents, well-aligned batches, at least one batch) the evaluator
succeeds on both orders with bit-identical global metrics; the
per-language records are NOT invariant in general (see the
counterexample), because the language array stays aligned with the
original concatenation order. -/
theorem C4_batch_order_global_invariance (M : EvalModel) (bs bs2 : List Batch)
    (ls : List String) (hperm : List.Perm bs bs2) (hne : bs ≠ [])
    (hwf : ∀ b ∈ bs, goodBatch M b) :
    ∃ g lm lm2, evaluate_metrics M bs ls = some (g, lm)
      ∧ evaluate_metrics M bs2 ls = some (g, lm2) := by
  have hwf2 : ∀ b ∈ bs2, goodBatch M b := fun b hb => hwf b (hperm.mem_iff.mpr hb)
  have hne2 : bs2 ≠ [] := by
    intro h
    subst h
    exact hne hperm.eq_nil
  have hvec : ∀ x ∈ (bs.map (processBatch M)).map BatchAcc.icL, x.isVec = true := by
    intro x hx
    rcases List.mem_map.mp hx with ⟨a, ha, rfl⟩
    rcases List.mem_map.mp ha with ⟨b, hb, rfl⟩
    exact (hwf b hb).1
  have hvec2 : ∀ x ∈ (bs2.map (processBatch M)).map BatchAcc.icL, x.isVec = true := by
    intro x hx
    rcases List.mem_map.mp hx with ⟨a, ha, rfl⟩
    rcases List.mem_map.mp ha with ⟨b, hb, rfl⟩
    exact (hwf2 b hb).1
  have hmne : (bs.map (processBatch M)).map BatchAcc.icL ≠ [] := by
    simp only [ne_eq, List.map_eq_nil_iff]
    exact hne
  have hmne2 : (bs2.map (processBatch M)).map BatchAcc.icL ≠ [] := by
    simp only [ne_eq, List.map_eq_nil_iff]
    exact hne2
  have hc1 := npConcatenate_all_vec _ hmne hvec
  have hc2 := npConcatenate_all_vec _ hmne2 hvec2
  have e1 := evaluate_metrics_some M bs ls _ hc1
  have e2 := evaluate_metrics_some M bs2 ls _ hc2
  have hpa : List.Perm (bs.map (processBatch M)) (bs2.map (processBatch M)) :=
    hperm.map (processBatch M)
  have hmm : ∀ l : List BatchAcc,
      ((l.map BatchAcc.icL).map NDA.toVec) = l.map (fun a => a.icL.toVec) := by
    intro l
    rw [List.map_map]
    rfl
  have hlen1 : ∀ a ∈ bs.map (processBatch M), (a.icL).toVec.length = a.icO.length := by
    intro a ha
    rcases List.mem_map.mp ha with ⟨b, hb, rfl⟩
    exact (hwf b hb).2.1
  have hlen2 : ∀ a ∈ bs.map (processBatch M), a.nerO.length = a.nerL.length := by
    intro a ha
    rcases List.mem_map.mp ha with ⟨b, hb, rfl⟩
    exact (hwf b hb).2.2
  have hg : globalMetricsOf (((bs.map (processBatch M)).map BatchAcc.icL).map NDA.toVec).flatten
      (((bs.map (processBatch M)).map BatchAcc.icO).flatten)
      (((bs.map (processBatch M)).map BatchAcc.nerL).flatten)
      (((bs.map (processBatch M)).map BatchAcc.nerO).flatten)
      = globalMetricsOf (((bs2.map (processBatch M)).map BatchAcc.icL).map NDA.toVec).flatten
      (((bs2.map (processBatch M)).map BatchAcc.icO).flatten)
      (((bs2.map (processBatch M)).map BatchAcc.nerL).flatten)
      (((bs2.map (processBatch M)).map BatchAcc.nerO).flatten) := by
    rw [hmm (bs.map (processBatch M)), hmm (bs2.map (processBatch M))]
    exact globalMetricsOf_perm _ _ hpa hlen1 hlen2
  rw [hg] at e1
  exact ⟨_, _, _, e1, e2⟩

/-! ### Claim C6 -/

/-- The example indices the boolean mask `language_arr == lang`
selects. -/
def selIdx (langs : List String) (lang : String) : List Nat :=
  (List.range langs.length).filter (fun i => langs.getD i nullTag == lang)

theorem maskSel_eq_selIdx {α : Type} (dflt : α) :
    ∀ (langs : List String) (xs : List α), xs.length = langs.length →
      ∀ lang, maskSel langs lang xs
        = (selIdx langs lang).map (fun i => xs.getD i dflt) := by
  intro langs
  induction langs with
  | nil =>
      intro xs h lang
      rw [List.length_eq_zero.mp h]
      rfl
  | cons a ls ih =>
      intro xs h lang
      cases xs with
      | nil => simp at h
      | cons x xs2 =>
          have h2 : xs2.length = ls.length := by simpa using h
          have hbase := ih xs2 h2 lang
          unfold maskSel selIdx at hbase ⊢
          simp only [List.length_cons, List.range_succ_eq_map, List.zip_cons_cons,
            List.filter_cons, List.getD_cons_zero]
          rw [List.filter_map]
          by_cases hc : (a == lang) = true
          · simp only [hc, if_true, List.map_cons, List.map_map]
            refine congrArg (x :: ·) ?_
            rw [hbase]
            rfl
          · simp only [hc, if_false, Bool.false_eq_true, List.map_map]
            rw [hbase]
            rfl

/-- C6: on a successful evaluation the per-language mapping has exactly
the distinct language values as keys (one per value occurring in the
language array), each key's record is computed from the
boolean-mask-selected example subset of that key alone, the selected
index sets are pairwise disjoint and non-empty, they cover every example
position, and mask selection is exactly index selection on aligned
arrays. -/
theorem C6_per_language_partition (M : EvalModel) (bs : List Batch) (ls : List String)
    (g : Metrics) (lm : List (String × Metrics))
    (he : evaluate_metrics M bs ls = some (g, lm)) :
    (∃ A : List Int,
      npConcatenate ((bs.map (processBatch M)).map BatchAcc.icL) = some A
      ∧ lm = (uniqueLangs ls).map (fun lang =>
          (lang, globalMetricsOf (maskSel ls lang A)
            (maskSel ls lang (((bs.map (processBatch M)).map BatchAcc.icO).flatten))
            (maskSel ls lang (((bs.map (processBatch M)).map BatchAcc.nerL).flatten))
            (maskSel ls lang (((bs.map (processBatch M)).map BatchAcc.nerO).flatten)))))
    ∧ lm.map Prod.fst = uniqueLangs ls
    ∧ (uniqueLangs ls).Nodup
    ∧ (∀ lang, lang ∈ uniqueLangs ls ↔ lang ∈ ls)
    ∧ (∀ lang ∈ uniqueLangs ls, selIdx ls lang ≠ [])
    ∧ (∀ lang lang2, lang ≠ lang2 → ∀ i, i ∈ selIdx ls lang → i ∉ selIdx ls lang2)
    ∧ (∀ i, i < ls.length → ∃ lang ∈ uniqueLangs ls, i ∈ selIdx ls lang)
    ∧ (∀ lang, ∀ xs : List Int, ∀ dflt : Int, xs.length = ls.length →
        maskSel ls lang xs = (selIdx ls lang).map (fun i => xs.getD i dflt)) := by
  have hstruct : ∃ A : List Int,
      npConcatenate ((bs.map (processBatch M)).map BatchAcc.icL) = some A
      ∧ lm = (uniqueLangs ls).map (fun lang =>
          (lang, globalMetricsOf (maskSel ls lang A)
            (maskSel ls lang (((bs.map (processBatch M)).map BatchAcc.icO).flatten))
            (maskSel ls lang (((bs.map (processBatch M)).map BatchAcc.nerL).flatten))
            (maskSel ls lang (((bs.map (processBatch M)).map BatchAcc.nerO).flatten)))) := by
    unfold evaluate_metrics at he
    dsimp only at he
    split at he
    next heq => exact Option.noConfusion he
    next A heq =>
        injection he with he2
        injection he2 with hg2 hl2
        exact ⟨A, heq, hl2.symm⟩
  refine ⟨hstruct, ?_, List.nodup_dedup ls, fun lang => List.mem_dedup, ?_, ?_, ?_, ?_⟩
  · rcases hstruct with ⟨A, _, hl2⟩
    rw [hl2]
    exact map_fst_map_pair _ (uniqueLangs ls)
  · intro lang hlang
    rcases List.getElem_of_mem (List.mem_dedup.mp hlang) with ⟨i, hi, hgi⟩
    apply List.ne_nil_of_mem (a := i)
    unfold selIdx
    rw [List.mem_filter]
    refine ⟨List.mem_range.mpr hi, ?_⟩
    rw [List.getD_eq_getElem ls nullTag hi, hgi]
    exact beq_self_eq_true lang
  · intro lang lang2 hne i hmem hmem2
    unfold selIdx at hmem hmem2
    have e1 := (List.mem_filter.mp hmem).2
    have e2 := (List.mem_filter.mp hmem2).2
    exact hne ((eq_of_beq e1).symm.trans (eq_of_beq e2))
  · intro i hi
    refine ⟨ls.getD i nullTag, ?_, ?_⟩
    · unfold uniqueLangs
      rw [List.mem_dedup, List.getD_eq_getElem ls nullTag hi]
      exact List.getElem_mem hi
    · unfold selIdx
      rw [List.mem_filter]
      exact ⟨List.mem_range.mpr hi, beq_self_eq_true _⟩
  · intro lang xs dflt hlen
    exact maskSel_eq_selIdx dflt ls xs hlen lang

/-! ### Claim C8 -/

theorem argmaxAux_lt :
    ∀ (l : List ℚ) (i bi : Nat) (bv : ℚ), bi < i →
      argmaxAux l i bi bv < i + l.length := by
  intro l
  induction l with
  | nil =>
      intro i bi bv h
      unfold argmaxAux
      simpa using h
  | cons x rest ih =>
      intro i bi bv h
      unfold argmaxAux
      by_cases hc : bv < x
      · simp only [hc, if_true]
        have hr := ih (i + 1) i x (Nat.lt_succ_self i)
        simp only [List.length_cons]
        omega
      · simp only [hc, if_false]
        have hr := ih (i + 1) bi bv (by omega)
        simp only [List.length_cons]
        omega

theorem argmaxQ_lt (l : List ℚ) (h : l ≠ []) : argmaxQ l < l.length := by
  cases l with
  | nil => exact absurd rfl h
  | cons x rest =>
      unfold argmaxQ
      have := argmaxAux_lt rest 1 0 x (Nat.lt_succ_self 0)
      simp only [List.length_cons]
      omega

theorem chunkGo_mem {α : Type} (k : Nat) (hk : 0 < k) :
    ∀ (fuel : Nat) (l c : List α), c ∈ chunkGo k fuel l → c ≠ [] ∧ c.length ≤ k := by
  intro fuel
  induction fuel with
  | zero =>
      intro l c hc
      simp [chunkGo] at hc
  | succ fuel ih =>
      intro l c hc
      cases l with
      | nil => simp [chunkGo] at hc
      | cons a l2 =>
          rw [chunkGo] at hc
          simp only [List.isEmpty_cons, Bool.false_eq_true, if_false] at hc
          rcases List.mem_cons.mp hc with h1 | h2
          · subst h1
            constructor
            · cases k with
              | zero => omega
              | succ k2 => simp [List.take]
            · rw [List.length_take]
              omega
          · exact ih _ c h2

theorem chunkList_mem {α : Type} (k : Nat) (hk : 0 < k) (l c : List α)
    (hc : c ∈ chunkList k l) : c ≠ [] ∧ c.length ≤ k := by
  unfold chunkList at hc
  rw [if_neg (by omega)] at hc
  exact chunkGo_mem k hk l.length l c hc

/-- C8: on every batch the evaluator's predicted IC label ids lie in
`[0, numIC)` and its predicted NER label ids lie in `[0, numNER)` (the
single per-level label-count range the evaluator uses), so under a
mapping that covers that range every decoded predicted tag is a real
string, never the missing-key sentinel. -/
theorem C8_pred_ids_in_range (M : EvalModel) (b : Batch)
    (h1 : 0 < M.numIC) (h2 : 0 < M.numNER)
    (hrow : ∀ r ∈ M.run b, r ≠ [])
    (hdom : ∀ i : Nat, i < M.numNER → ((invertMap M.ner2idx) (Int.ofNat i)).isSome = true) :
    (∀ x ∈ (processBatch M b).icO, 0 ≤ x ∧ x < (M.numIC : Int))
    ∧ (∀ row ∈ nerPredIds M (M.run b), ∀ n ∈ row, n < M.numNER)
    ∧ (∀ row ∈ (processBatch M b).nerO, ∀ t ∈ row, t.isSome = true) := by
  have hner : ∀ row ∈ nerPredIds M (M.run b), ∀ n ∈ row, n < M.numNER := by
    intro row hrow2 n hn
    unfold nerPredIds at hrow2
    rcases List.mem_map.mp hrow2 with ⟨ex, hex, rfl⟩
    rcases List.mem_map.mp hn with ⟨c, hcmem, rfl⟩
    have hc := chunkList_mem M.numNER h2 ex c hcmem
    exact Nat.lt_of_lt_of_le (argmaxQ_lt c hc.1) hc.2
  refine ⟨?_, hner, ?_⟩
  · intro x hx
    have hx2 : x ∈ icPred M (M.run b) := hx
    unfold icPred at hx2
    rcases List.mem_map.mp hx2 with ⟨r, hr, rfl⟩
    constructor
    · exact Int.ofNat_nonneg _
    · have hne : r.take M.numIC ≠ [] := by
        rw [ne_eq, List.take_eq_nil_iff]
        push_neg
        exact ⟨by omega, hrow r hr⟩
      have := argmaxQ_lt (r.take M.numIC) hne
      have hlen : (r.take M.numIC).length ≤ M.numIC := by
        rw [List.length_take]
        omega
      exact Int.ofNat_lt.mpr (Nat.lt_of_lt_of_le this hlen)
  · intro row hrow2 t ht
    have hrow3 : row ∈ ((nerPredIds M (M.run b)).map
        (List.map (fun n => invertMap M.ner2idx (Int.ofNat n)))) := hrow2
    rcases List.mem_map.mp hrow3 with ⟨ids, hids, rfl⟩
    rcases List.mem_map.mp ht with ⟨n, hnmem, rfl⟩
    exact hdom n (hner ids hids n hnmem)

/-! ### Claim C10 -/

theorem col0_take1 (r : List Int) : (r.take 1).headD 0 = r.getD 0 0 := by
  cases r <;> rfl

theorem map_take1_headD :
    ∀ m : List (List Int),
      (m.map (List.take 1)).map (fun r => r.headD 0) = m.map (fun r => r.getD 0 0) := by
  intro m
  induction m with
  | nil => rfl
  | cons r m ih => simp only [List.map_cons, ih, col0_take1]

/-- `torch.squeeze` on the IC column of a batch of at least two
examples keeps a one-dimensional array: one entry per example, namely
column 0 of the stacked label tensor. -/
theorem squeezeCol1_two (m : List (List Int)) (hm : 2 ≤ m.length) :
    squeezeCol1 (m.map (List.take 1)) = NDA.vec (m.map (fun r => r.getD 0 0)) := by
  rcases m with _ | ⟨r1, m2⟩
  · simp at hm
  rcases m2 with _ | ⟨r2, rest⟩
  · simp at hm
  show NDA.vec (((r1 :: r2 :: rest).map (List.take 1)).map (fun r => r.headD 0))
      = NDA.vec ((r1 :: r2 :: rest).map (fun r => r.getD 0 0))
  rw [map_take1_headD]

/-- C10: on a batch of at least two examples the evaluator's label split
accumulates exactly one IC gold label per example — column 0 of the
stacked label tensor — and takes the NER gold labels from columns 1
onward; a one-example batch instead collapses to a zero-dimensional
scalar under `torch.squeeze`, which is why the two-example precondition
is needed. -/
theorem C10_label_split (M : EvalModel) (b : Batch) (h2 : 2 ≤ b.labels.length) :
    (processBatch M b).icL = NDA.vec (b.labels.map (fun r => r.getD 0 0))
    ∧ (b.labels.map (fun r => r.getD 0 0)).length = b.labels.length
    ∧ (processBatch M b).nerL = decodeNER (invertMap M.ner2idx) (b.labels.map (List.drop 1))
    ∧ (∀ x : List Int, squeezeCol1 [x] = NDA.scalar (x.headD 0)) := by
  refine ⟨?_, by simp, rfl, fun x => rfl⟩
  show squeezeCol1 (b.labels.map (List.take 1)) = _
  exact squeezeCol1_two b.labels h2

/-- Witness for C10 on the concrete two-example batch. -/
theorem C10_label_split_witness :
    2 ≤ exB1.labels.length
    ∧ (processBatch exM exB1).icL = NDA.vec (exB1.labels.map (fun r => r.getD 0 0)) :=
  ⟨by decide, (C10_label_split exM exB1 (by decide)).1⟩

/-! ### Claim C5 -/

/-- C5: the evaluator is a deterministic function of the frozen model
state and the batch / language data — two calls with equal inputs return
equal global and per-language metric mappings. -/
theorem C5_evaluator_deterministic (M M2 : EvalModel) (bs bs2 : List Batch)
    (ls ls2 : List String) (hM : M = M2) (hb : bs = bs2) (hl : ls = ls2) :
    evaluate_metrics M bs ls = evaluate_metrics M2 bs2 ls2 := by
  subst hM
  subst hb
  subst hl
  rfl

/-- Witness for C5: two identical calls on the concrete evaluator
state. -/
theorem C5_evaluator_deterministic_witness :
    evaluate_metrics exM [exB1, exB2] exLangs
      = evaluate_metrics exM [exB1, exB2] exLangs :=
  C5_evaluator_deterministic exM exM [exB1, exB2] [exB1, exB2] exLangs exLangs
    rfl rfl rfl

/-! ### Claim C3 -/

/-- Batch whose NER gold labels contain the id 1, which is missing from
the tag dictionary `[("O", 0)]` of `exM`. -/
def exB3 : Batch :=
  { tokens := [[1], [2]], attn_mask := [[1], [1]], labels := [[0, 1], [0, 1]] }

/-- C3 (code-bug evidence): decoding uses `dict.get` via `np.vectorize`,
so an NER id absent from the id-to-string mapping is decoded to the
sentinel `none` inside the tag sequences, and the evaluation run
continues to a result instead of aborting. -/
theorem C3_missing_id_sentinel :
    decodeNER (invertMap [("O", 0)]) [[0, 1]] = [[some ("O"), none]]
    ∧ (processBatch exM exB3).nerL = [[none], [none]]
    ∧ (evaluate_metrics exM [exB3] ["en", "en"]).isSome = true :=
  ⟨rfl, rfl, rfl⟩

/-! ### Remaining evaluator witnesses -/

/-- Witness for the amended C4: the two concrete batch orders both
succeed with the same global record. -/
theorem C4_batch_order_global_invariance_witness :
    ∃ g lm lm2, evaluate_metrics exM [exB1, exB2] exLangs = some (g, lm)
      ∧ evaluate_metrics exM [exB2, exB1] exLangs = some (g, lm2) :=
  C4_batch_order_global_invariance exM [exB1, exB2] [exB2, exB1] exLangs
    (List.Perm.swap exB2 exB1 []) (by decide)
    (by
      intro b hb
      fin_cases hb
      · exact ⟨rfl, rfl, rfl⟩
      · exact ⟨rfl, rfl, rfl⟩)

/-- Witness for C6 on the concrete evaluation: distinct keys and a
non-empty `en` subset. -/
theorem C6_per_language_partition_witness :
    (uniqueLangs exLangs).Nodup ∧ selIdx exLangs ("en") ≠ [] := by
  have he := evaluate_metrics_some exM [exB1, exB2] exLangs [0, 0, 0, 0] rfl
  have h := C6_per_language_partition exM [exB1, exB2] exLangs _ _ he
  exact ⟨h.2.2.1, h.2.2.2.2.1 ("en") (by decide)⟩

/-- Witness for C8 on the concrete batch: predicted IC ids lie in
`[0, 2)`. -/
theorem C8_pred_ids_in_range_witness :
    0 < exM.numIC
    ∧ ∀ x ∈ (processBatch exM exB1).icO, 0 ≤ x ∧ x < (exM.numIC : Int) :=
  ⟨by decide,
    (C8_pred_ids_in_range exM exB1 (by decide) (by decide) (by decide)
      (fun i hi => by
        have hn : exM.numNER = 1 := rfl
        rw [hn] at hi
        have h0 : i = 0 := by omega
        subst h0
        decide)).1⟩

/-- Witness for C2 at concrete rational matrices. -/
theorem C2_pooling_head_algorithm_witness :
    NER2IC_forward [[1, 2]] [3] [[4, 5], [6, 7]] [[8], [9]]
      = NER2IC_specAlg [[1, 2]] [3] [[4, 5], [6, 7]] [[8], [9]] :=
  C2_pooling_head_algorithm [[1, 2]] [3] [[4, 5], [6, 7]] [[8], [9]]
